import Mathlib

/-!
Verification of the TESS PRF retrieval core
(`interm_tess_prf_retrieve.ipynb`): a shallow embedding of the
notebook's functions over exact rationals, together with theorems
settling the specified properties.

Modelling conventions:
* `float` values are modelled by `ℚ` (exact arithmetic).
* `np.round` (round half to even) is `npRound`.
* 2-D numpy arrays are `NMat`: explicit dimensions plus an entry
  function; entries outside the dimensions are irrelevant, and image
  equality is the pointwise predicate `NMat.Eq`.
* numpy fancy indexing with an index list is `takeRows`/`takeCols`;
  an out-of-bounds index (beyond numpy's negative-wrap convention)
  is an `IndexError`, modelled by `none`.
* Python `assert`/`raise` failures are `none`; the file loader is an
  explicit function parameter (the sole I/O boundary).
* `np.argsort` on the 5-element difference arrays is a stable sort
  (numpy uses insertion sort below its small-array threshold), here
  `argsortIdx`.
-/

/-- A 2-D numeric array: row count, column count, entry function. -/
structure NMat where
  nr : ℕ
  nc : ℕ
  e : ℕ → ℕ → ℚ

/-- Pointwise equality of arrays: same shape, same entries inside it. -/
def NMat.Eq (A B : NMat) : Prop :=
  A.nr = B.nr ∧ A.nc = B.nc ∧ ∀ i < A.nr, ∀ j < A.nc, A.e i j = B.e i j

instance (A B : NMat) : Decidable (A.Eq B) := by
  unfold NMat.Eq
  infer_instance

/-- Executable floor on `ℚ` (`/` on `ℤ` is Euclidean division, so this
is the true floor; see `ratFloor_eq`). -/
def ratFloor (q : ℚ) : ℤ := q.num / q.den

/-- `np.round`: round half to even. -/
def npRound (q : ℚ) : ℤ :=
  if q - ratFloor q < 1/2 then ratFloor q
  else if 1/2 < q - ratFloor q then ratFloor q + 1
  else if ratFloor q % 2 = 0 then ratFloor q else ratFloor q + 1

/-- `getOffsetsFromPixelFractions(col, row)` from the notebook:
`colFrac = np.remainder(col, 1)`, `colOffset = 9 - np.round(9*colFrac) - 1`,
and analogously for rows. -/
def getOffsetsFromPixelFractions (col row : ℚ) : ℤ × ℤ :=
  let gridSize : ℤ := 9
  let colFrac : ℚ := col - ratFloor col
  let rowFrac : ℚ := row - ratFloor row
  (gridSize - npRound (9 * colFrac) - 1, gridSize - npRound (9 * rowFrac) - 1)

/-- `pathLookup(ccd, camera, sector)`: datestring and subdirectory, or a
`ValueError` (`none`) when `sector < 1` or `camera > 4` or `ccd > 4`. -/
def pathLookup (ccd camera sector : ℤ) : Option (String × String) :=
  if sector < 1 then none
  else if camera > 4 ∨ ccd > 4 then none
  else if sector ≤ 3 then
    let datestring :=
      if camera ≥ 3 then "2018243163601"
      else if camera = 2 ∧ ccd = 4 then "2018243163601"
      else "2018243163600"
    some (datestring, "/start_s0001/")
  else
    let datestring :=
      if camera = 1 ∧ ccd ≥ 2 then "2019107181901"
      else if camera = 2 then "2019107181901"
      else if camera = 3 ∧ ccd ≥ 2 then "2019107181902"
      else if camera = 4 then "2019107181902"
      else "2019107181900"
    some (datestring, "/start_s0004/")

/-- numpy index resolution: `i` addresses an axis of length `n` when
`-n ≤ i < n`; negative indices wrap from the end. -/
def validIdx (n : ℕ) (i : ℤ) : Prop := -(n : ℤ) ≤ i ∧ i < n

instance (n : ℕ) (i : ℤ) : Decidable (validIdx n i) := by
  unfold validIdx
  infer_instance

/-- Resolve a (possibly negative) numpy index to the actual position. -/
def npWrap (n : ℕ) (i : ℤ) : ℕ := (if i < 0 then i + n else i).toNat

/-- `A[idx, :]`: numpy fancy indexing on the row axis; `none` models the
`IndexError` raised when some index is out of bounds. -/
def takeRows (A : NMat) (idx : List ℤ) : Option NMat :=
  if ∀ i ∈ idx, validIdx A.nr i then
    some ⟨idx.length, A.nc, fun k j => A.e (npWrap A.nr (idx.getD k 0)) j⟩
  else none

/-- `A[:, idx]`: numpy fancy indexing on the column axis. -/
def takeCols (A : NMat) (idx : List ℤ) : Option NMat :=
  if ∀ i ∈ idx, validIdx A.nc i then
    some ⟨A.nr, idx.length, fun i k => A.e i (npWrap A.nc (idx.getD k 0))⟩
  else none

/-- Length of `np.arange(n / 9.0)`: `⌈n / 9⌉` elements. -/
def arangeNinth (n : ℕ) : ℕ := (n + 8) / 9

/-- `getRegSampledPrfFitsByOffset(prfArray, colOffset, rowOffset)`:
after asserting both offsets are `< 9`, builds
`iCol = colOffset + 9 * arange(shape[0] / 9.0)` and
`iRow = rowOffset + 9 * arange(shape[1] / 9.0)` (the notebook reads
`shape` into `(nColOut, nRowOut)` in that order), then returns
`prfArray[iRow, :][:, iCol]`. -/
def getRegSampledPrfFitsByOffset (prfArray : NMat) (colOffset rowOffset : ℤ) :
    Option NMat :=
  let gridSize : ℤ := 9
  if colOffset < gridSize ∧ rowOffset < gridSize then
    let iCol := (List.range (arangeNinth prfArray.nr)).map
      (fun k : ℕ => colOffset + 9 * (k : ℤ))
    let iRow := (List.range (arangeNinth prfArray.nc)).map
      (fun k : ℕ => rowOffset + 9 * (k : ℤ))
    (takeRows prfArray iRow).bind (fun tmp => takeCols tmp iCol)
  else none

/-- Stable insertion of index `i` into an index list already sorted by the
key `d` (the inserted index precedes equal keys already present). -/
def insIdx (d : ℕ → ℚ) (i : ℕ) : List ℕ → List ℕ
  | [] => [i]
  | j :: t => if d i ≤ d j then i :: j :: t else j :: insIdx d i t

/-- Stable sort of an index list by the key `d`; inserting from the left,
so earlier (smaller) indices precede later ones on equal keys. This is
`np.argsort` restricted to the index lists we use (numpy's sort is an
insertion sort below its small-array cutoff, hence stable here). -/
def sortIdx (d : ℕ → ℚ) : List ℕ → List ℕ
  | [] => []
  | i :: t => insIdx d i (sortIdx d t)

/-- `np.argsort` over the first `n` indices of the key `d`. -/
def argsortIdx (d : ℕ → ℚ) (n : ℕ) : List ℕ := sortIdx d (List.range n)

/-- The five fixed PRF row positions. -/
def posRows : List ℤ := [1, 513, 1025, 1536, 2048]

/-- The five fixed PRF column positions. -/
def posCols : List ℤ := [45, 557, 1069, 1580, 2092]

/-- Absolute-difference key `|positions[k] - x|` used by
`determineFourClosestPrfLoc`. -/
def difKey (ps : List ℤ) (x : ℚ) : ℕ → ℚ := fun k => |(ps.getD k 0 : ℚ) - x|

/-- `determineFourClosestPrfLoc(col, row)`: the four (col, row) pairs
`(c, r)` for `r` over `posRows[argsort(difrow)[0:2]]` and `c` over
`posCols[argsort(difcol)[0:2]]`, appended with `r` in the outer loop. -/
def determineFourClosestPrfLoc (col row : ℚ) : List (ℤ × ℤ) :=
  let difcol := difKey posCols col
  let difrow := difKey posRows row
  let rowSel := ((argsortIdx difrow 5).take 2).map (fun k => posRows.getD k 0)
  let colSel := ((argsortIdx difcol 5).take 2).map (fun k => posCols.getD k 0)
  rowSel.flatMap (fun r => colSel.map (fun c => (c, r)))

/-- `interpolatePrf(regPrfArray, col, row, imagePos)`: destructures the
four images, reads `c0 = imagePos[0][0]`, `c1 = imagePos[1][0]`,
`r0 = imagePos[0][1]`, `r1 = imagePos[2][1]`, asserts `c0 != c1` and
`r0 != r1`, and interpolates element-wise; `none` models the Python
unpacking/assertion failures. -/
def interpolatePrf (regPrfArray : List NMat) (col row : ℚ)
    (imagePos : List (ℤ × ℤ)) : Option NMat :=
  match regPrfArray with
  | [p11, p21, p12, p22] =>
    let c0 := (imagePos.getD 0 (0, 0)).1
    let c1 := (imagePos.getD 1 (0, 0)).1
    let r0 := (imagePos.getD 0 (0, 0)).2
    let r1 := (imagePos.getD 2 (0, 0)).2
    if c0 ≠ c1 ∧ r0 ≠ r1 then
      let dCol : ℚ := (col - c0) / (c1 - c0)
      let dRow : ℚ := (row - r0) / (r1 - r0)
      some ⟨p11.nr, p11.nc, fun i j =>
        let tmp1 := p11.e i j + (p21.e i j - p11.e i j) * dCol
        let tmp2 := p12.e i j + (p22.e i j - p12.e i j) * dCol
        tmp1 + (tmp2 - tmp1) * dRow⟩
    else none
  | _ => none

/-- The I/O boundary: `readOnePrfFitsFile(ccd, camera, col, row, path,
datestring)` is an abstract loader returning the interleaved array, or
`none` when the resource does not resolve. -/
def LoadFn : Type := ℤ → ℤ → ℤ → ℤ → String → String → Option NMat

/-- `getNearestPrfFits(col, row, ccd, camera, sector, path)`: path and
datestring from `pathLookup`, offsets from the pixel fractions, the four
closest grid locations, then load and extract only `imagePos[0]`. -/
def getNearestPrfFits (load : LoadFn) (col row : ℚ) (ccd camera sector : ℤ)
    (path : String) : Option NMat :=
  (pathLookup ccd camera sector).bind (fun da =>
    let fullPath := path ++ da.2
    let off := getOffsetsFromPixelFractions col row
    let imagePos := determineFourClosestPrfLoc col row
    let bestPos := imagePos.getD 0 (0, 0)
    (load ccd camera bestPos.1 bestPos.2 fullPath da.1).bind (fun prfArray =>
      getRegSampledPrfFitsByOffset prfArray off.1 off.2))

/-- `getPrfAtColRowFits(col, row, ccd, camera, sector, path)`: as the
nearest lookup, but loads and extracts all four locations and
interpolates between them. -/
def getPrfAtColRowFits (load : LoadFn) (col row : ℚ) (ccd camera sector : ℤ)
    (path : String) : Option NMat :=
  (pathLookup ccd camera sector).bind (fun da =>
    let fullPath := path ++ da.2
    let off := getOffsetsFromPixelFractions col row
    let imagePos := determineFourClosestPrfLoc col row
    (imagePos.mapM (fun pos =>
      (load ccd camera pos.1 pos.2 fullPath da.1).bind (fun prfArray =>
        getRegSampledPrfFitsByOffset prfArray off.1 off.2))).bind
      (fun prfImages => interpolatePrf prfImages col row imagePos))

/-- A constant loader used to exhibit concrete runs: every file resolves
to the same 9×9 array with entry `9·i + j`. -/
def constLoad : LoadFn :=
  fun _ _ _ _ _ _ => some ⟨9, 9, fun i j => (9 * i + j : ℚ)⟩

/-- `i0` and `i1` are the two indices of `l` carrying the smallest keys,
with ties broken towards the smaller index, listed in key-sort order:
`i0` is the least index attaining the minimum of `d` over `l`, and `i1`
the least index attaining the minimum over `l` without `i0`. -/
def TwoSmallest (d : ℕ → ℚ) (l : List ℕ) (i0 i1 : ℕ) : Prop :=
  i0 ∈ l ∧ i1 ∈ l ∧ i0 ≠ i1 ∧
  (∀ j ∈ l, d i0 ≤ d j) ∧
  (∀ j ∈ l, d j = d i0 → i0 ≤ j) ∧
  (∀ j ∈ l, j ≠ i0 → d i1 ≤ d j) ∧
  (∀ j ∈ l, j ≠ i0 → d j = d i1 → i1 ≤ j)

section MainTheorems

attribute [local semireducible] Rat.mul Rat.add Rat.sub Rat.inv

theorem ratFloor_eq (q : ℚ) : ratFloor q = ⌊q⌋ := Rat.floor_def.symm

example : getOffsetsFromPixelFractions (247/10) (123/10) = (2, 5) := by decide

example : determineFourClosestPrfLoc 301 257 =
    [(45, 1), (557, 1), (45, 513), (557, 513)] := by decide

example : determineFourClosestPrfLoc 1000 1500 =
    [(1069, 1536), (557, 1536), (1069, 1025), (557, 1025)] := by decide

theorem npRound_bounds (q : ℚ) : ⌊q⌋ ≤ npRound q ∧ npRound q ≤ ⌊q⌋ + 1 := by
  unfold npRound
  rw [ratFloor_eq]
  split_ifs <;> omega

theorem offset_coord_range (x : ℚ) :
    -1 ≤ 9 - npRound (9 * (x - ratFloor x)) - 1 ∧
      9 - npRound (9 * (x - ratFloor x)) - 1 ≤ 8 := by
  rw [ratFloor_eq]
  have h0 : (⌊x⌋ : ℚ) ≤ x := Int.floor_le x
  have h1 : x < ⌊x⌋ + 1 := Int.lt_floor_add_one x
  have hf0 : (0 : ℚ) ≤ 9 * (x - ⌊x⌋) := by linarith
  have hf1 : 9 * (x - ⌊x⌋) < 9 := by linarith
  have hfl0 : 0 ≤ ⌊9 * (x - (⌊x⌋ : ℚ))⌋ := Int.floor_nonneg.mpr hf0
  have hfl1 : ⌊9 * (x - (⌊x⌋ : ℚ))⌋ < 9 := by
    apply Int.floor_lt.mpr
    exact_mod_cast hf1
  have hb := npRound_bounds (9 * (x - (⌊x⌋ : ℚ)))
  omega

/-- C1 (amended): for every rational col and row the two offsets lie in
`[-1, 8]` (not `[0, 8]`: a fractional part above `17/18` rounds `9·frac`
up to `9`, giving offset `-1`). -/
theorem getOffsets_range (col row : ℚ) :
    -1 ≤ (getOffsetsFromPixelFractions col row).1 ∧
      (getOffsetsFromPixelFractions col row).1 ≤ 8 ∧
      -1 ≤ (getOffsetsFromPixelFractions col row).2 ∧
      (getOffsetsFromPixelFractions col row).2 ≤ 8 := by
  unfold getOffsetsFromPixelFractions
  have hc := offset_coord_range col
  have hr := offset_coord_range row
  exact ⟨hc.1, hc.2, hr.1, hr.2⟩

/-- C1 counterexample: at col = row = 19/20 the fractional part is 19/20,
`np.round(9 · 19/20) = np.round(8.55) = 9`, and both offsets are `-1`,
outside the claimed range `[0, 8]`. -/
theorem getOffsets_below_zero_at_frac_19_20 :
    getOffsetsFromPixelFractions (19/20) (19/20) = (-1, -1) := by decide

/-- C9: the offsets depend only on the fractional parts: shifting both
coordinates by one pixel leaves the returned pair unchanged. -/
theorem getOffsets_periodic (col row : ℚ) :
    getOffsetsFromPixelFractions col row =
      getOffsetsFromPixelFractions (col + 1) (row + 1) := by
  unfold getOffsetsFromPixelFractions
  have h : ∀ x : ℚ, x - (ratFloor x : ℚ) = x + 1 - (ratFloor (x + 1) : ℚ) := by
    intro x
    rw [ratFloor_eq, ratFloor_eq, Int.floor_add_one]
    push_cast
    ring
  rw [h col, h row]

theorem pathLookup_none_iff (ccd camera sector : ℤ) :
    pathLookup ccd camera sector = none ↔
      sector < 1 ∨ camera > 4 ∨ ccd > 4 := by
  unfold pathLookup
  split_ifs with h1 h2 h3 <;> simp <;> omega

/-- C6 (amended): `pathLookup` fails exactly when `sector < 1` or
`camera > 4` or `ccd > 4` (so `sector = 0` fails, but `camera` or `ccd`
below 1 is accepted, not rejected), and a `pathLookup` failure makes both
public operations fail. -/
theorem pathLookup_rejects_iff (ccd camera sector : ℤ) (load : LoadFn)
    (col row : ℚ) (path : String) :
    (pathLookup ccd camera sector = none ↔
      sector < 1 ∨ camera > 4 ∨ ccd > 4) ∧
    (pathLookup ccd camera sector = none →
      getNearestPrfFits load col row ccd camera sector path = none ∧
      getPrfAtColRowFits load col row ccd camera sector path = none) := by
  refine ⟨pathLookup_none_iff ccd camera sector, fun h => ⟨?_, ?_⟩⟩ <;>
    · simp only [getNearestPrfFits, getPrfAtColRowFits, h, Option.none_bind]

/-- C6 witness: `sector = 0` is rejected and both public operations fail
there. -/
theorem pathLookup_rejects_iff_witness :
    pathLookup 1 1 0 = none ∧
      getNearestPrfFits constLoad 0 0 1 1 0 "" = none ∧
      getPrfAtColRowFits constLoad 0 0 1 1 0 "" = none := by
  have h := pathLookup_rejects_iff 1 1 0 constLoad 0 0 ""
  have hn : pathLookup 1 1 0 = none := h.1.mpr (Or.inl (by decide))
  exact ⟨hn, (h.2 hn).1, (h.2 hn).2⟩

/-- C6 counterexample: `camera = 0` and `ccd = 0` are outside the
documented range `[1, 4]`, yet `pathLookup` succeeds instead of failing. -/
theorem pathLookup_accepts_camera_zero :
    pathLookup 0 0 1 = some ("2018243163600", "/start_s0001/") := by decide

theorem npWrap_of_nonneg (n : ℕ) (i : ℤ) (h : 0 ≤ i) : npWrap n i = i.toNat := by
  unfold npWrap
  rw [if_neg (by omega)]

theorem range_map_getD (f : ℕ → ℤ) (n k : ℕ) (hk : k < n) :
    (((List.range n).map f).getD k 0) = f k := by
  rw [List.getD_eq_getElem?_getD, List.getElem?_map, List.getElem?_range hk]
  rfl

theorem takeRows_valid (A : NMat) (idx : List ℤ)
    (h : ∀ i ∈ idx, validIdx A.nr i) :
    takeRows A idx =
      some ⟨idx.length, A.nc, fun k j => A.e (npWrap A.nr (idx.getD k 0)) j⟩ := by
  unfold takeRows
  rw [if_pos h]

theorem takeCols_valid (A : NMat) (idx : List ℤ)
    (h : ∀ i ∈ idx, validIdx A.nc i) :
    takeCols A idx =
      some ⟨A.nr, idx.length, fun i k => A.e i (npWrap A.nc (idx.getD k 0))⟩ := by
  unfold takeCols
  rw [if_pos h]

/-- C2: on a square array of side `9·N`, with offsets in `[0, 9)`, the
extraction succeeds and the output pixel `(i, j)` is exactly the array
entry `(rowOffset + 9·i, colOffset + 9·j)` — the interleaved slice,
copied with no arithmetic on the values. -/
theorem getRegSampled_entries (A : NMat) (N : ℕ) (co ro : ℤ)
    (hnr : A.nr = 9 * N) (hnc : A.nc = 9 * N)
    (hc0 : 0 ≤ co) (hc9 : co < 9) (hr0 : 0 ≤ ro) (hr9 : ro < 9) :
    ∃ img, getRegSampledPrfFitsByOffset A co ro = some img ∧
      img.nr = N ∧ img.nc = N ∧
      ∀ i < N, ∀ j < N,
        img.e i j = A.e (ro.toNat + 9 * i) (co.toNat + 9 * j) := by
  have hA : arangeNinth A.nr = N := by unfold arangeNinth; omega
  have hA' : arangeNinth A.nc = N := by unfold arangeNinth; omega
  have hvr : ∀ i ∈ (List.range N).map (fun k : ℕ => ro + 9 * (k : ℤ)),
      validIdx A.nr i := by
    intro i hi
    obtain ⟨k, hk, rfl⟩ := List.mem_map.mp hi
    have hk' := List.mem_range.mp hk
    unfold validIdx
    constructor <;> [omega; (rw [hnr]; push_cast; omega)]
  have hvc : ∀ i ∈ (List.range N).map (fun k : ℕ => co + 9 * (k : ℤ)),
      validIdx A.nc i := by
    intro i hi
    obtain ⟨k, hk, rfl⟩ := List.mem_map.mp hi
    have hk' := List.mem_range.mp hk
    unfold validIdx
    constructor <;> [omega; (rw [hnc]; push_cast; omega)]
  simp only [getRegSampledPrfFitsByOffset, hA, hA']
  rw [if_pos ⟨hc9, hr9⟩, takeRows_valid A _ hvr, Option.some_bind]
  refine ⟨_, takeCols_valid _ _ hvc, by simp, by simp, ?_⟩
  intro i hi j hj
  simp only
  rw [range_map_getD _ N i hi, range_map_getD _ N j hj,
    npWrap_of_nonneg _ _ (by omega), npWrap_of_nonneg _ _ (by omega)]
  congr 1 <;> omega

/-- C2 witness: a concrete 9×9 array with offsets (0, 0) extracts to the
1×1 image holding entry (0, 0). -/
theorem getRegSampled_entries_witness :
    ∃ img, getRegSampledPrfFitsByOffset ⟨9, 9, fun i j => (9 * i + j : ℚ)⟩
        0 0 = some img ∧
      img.nr = 1 ∧ img.nc = 1 ∧
      ∀ i < 1, ∀ j < 1,
        img.e i j = (NMat.mk 9 9 (fun i j => (9 * i + j : ℚ))).e
          ((0 : ℤ).toNat + 9 * i) ((0 : ℤ).toNat + 9 * j) :=
  getRegSampled_entries ⟨9, 9, fun i j => (9 * i + j : ℚ)⟩ 1 0 0 rfl rfl
    (by decide) (by decide) (by decide) (by decide)

/-- C7 (amended): the code asserts nothing about divisibility by 9: for
any square array of side `s ≥ 1` and offsets (0, 0) the extraction
succeeds, returning a `⌈s/9⌉ × ⌈s/9⌉` image even when `9 ∤ s`. -/
theorem getRegSampled_no_divisibility_assert (A : NMat) (s : ℕ)
    (hnr : A.nr = s) (hnc : A.nc = s) (hs : 1 ≤ s) :
    ∃ img, getRegSampledPrfFitsByOffset A 0 0 = some img ∧
      img.nr = (s + 8) / 9 ∧ img.nc = (s + 8) / 9 := by
  have hA : arangeNinth A.nr = (s + 8) / 9 := by unfold arangeNinth; omega
  have hA' : arangeNinth A.nc = (s + 8) / 9 := by unfold arangeNinth; omega
  have hvr : ∀ i ∈ (List.range ((s + 8) / 9)).map (fun k : ℕ => 0 + 9 * (k : ℤ)),
      validIdx A.nr i := by
    intro i hi
    obtain ⟨k, hk, rfl⟩ := List.mem_map.mp hi
    have hk' := List.mem_range.mp hk
    unfold validIdx
    constructor <;> [omega; (rw [hnr]; push_cast; omega)]
  have hvc : ∀ i ∈ (List.range ((s + 8) / 9)).map (fun k : ℕ => 0 + 9 * (k : ℤ)),
      validIdx A.nc i := by
    intro i hi
    obtain ⟨k, hk, rfl⟩ := List.mem_map.mp hi
    have hk' := List.mem_range.mp hk
    unfold validIdx
    constructor <;> [omega; (rw [hnc]; push_cast; omega)]
  simp only [getRegSampledPrfFitsByOffset, hA, hA']
  rw [if_pos ⟨by omega, by omega⟩, takeRows_valid A _ hvr, Option.some_bind]
  exact ⟨_, takeCols_valid _ _ hvc, by simp, by simp⟩

/-- C7 witness: a 10×10 array (side not divisible by 9) with offsets
(0, 0) succeeds and yields a 2×2 image. -/
theorem getRegSampled_no_divisibility_assert_witness :
    ∃ img, getRegSampledPrfFitsByOffset ⟨10, 10, fun _ _ => (0 : ℚ)⟩ 0 0 =
        some img ∧ img.nr = 2 ∧ img.nc = 2 :=
  getRegSampled_no_divisibility_assert ⟨10, 10, fun _ _ => (0 : ℚ)⟩ 10
    rfl rfl (by decide)

theorem sortIdx_two (d : ℕ → ℚ) (l : List ℕ)
    (hp : l.Pairwise (fun a b => a < b)) (h2 : 2 ≤ l.length) :
    ∃ i0 i1 rest, sortIdx d l = i0 :: i1 :: rest ∧ TwoSmallest d l i0 i1 := by
  induction l with
  | nil => simp at h2
  | cons i t ih =>
    have hlt : ∀ j ∈ t, i < j := (List.pairwise_cons.mp hp).1
    have hpt : t.Pairwise (fun a b => a < b) := (List.pairwise_cons.mp hp).2
    by_cases ht2 : 2 ≤ t.length
    · obtain ⟨j0, j1, r, hsort, hTS⟩ := ih hpt ht2
      obtain ⟨hj0m, hj1m, hj01, hmin0, htie0, hmin1, htie1⟩ := hTS
      have hstep : sortIdx d (i :: t) = insIdx d i (j0 :: j1 :: r) := by
        simp only [sortIdx, hsort]
      by_cases h1 : d i ≤ d j0
      · refine ⟨i, j0, j1 :: r, ?_, ?_⟩
        · rw [hstep]
          simp only [insIdx, if_pos h1]
        refine ⟨List.mem_cons_self i t, List.mem_cons_of_mem i hj0m,
          ne_of_lt (hlt j0 hj0m), ?_, ?_, ?_, ?_⟩
        · intro x hx
          rcases List.mem_cons.mp hx with rfl | hx'
          · exact le_refl _
          · exact le_trans h1 (hmin0 x hx')
        · intro x hx _
          rcases List.mem_cons.mp hx with rfl | hx'
          · exact le_refl _
          · exact le_of_lt (hlt x hx')
        · intro x hx hne
          rcases List.mem_cons.mp hx with rfl | hx'
          · exact absurd rfl hne
          · exact hmin0 x hx'
        · intro x hx hne hdx
          rcases List.mem_cons.mp hx with rfl | hx'
          · exact absurd rfl hne
          · exact htie0 x hx' hdx
      · by_cases h2' : d i ≤ d j1
        · refine ⟨j0, i, j1 :: r, ?_, ?_⟩
          · rw [hstep]
            simp only [insIdx, if_neg h1, if_pos h2']
          refine ⟨List.mem_cons_of_mem i hj0m, List.mem_cons_self i t,
            ne_of_gt (hlt j0 hj0m), ?_, ?_, ?_, ?_⟩
          · intro x hx
            rcases List.mem_cons.mp hx with rfl | hx'
            · exact le_of_lt (not_le.mp h1)
            · exact hmin0 x hx'
          · intro x hx hdx
            rcases List.mem_cons.mp hx with rfl | hx'
            · exact absurd hdx (ne_of_gt (not_le.mp h1))
            · exact htie0 x hx' hdx
          · intro x hx hne
            rcases List.mem_cons.mp hx with rfl | hx'
            · exact le_refl _
            · exact le_trans h2' (hmin1 x hx' hne)
          · intro x hx hne hdx
            rcases List.mem_cons.mp hx with rfl | hx'
            · exact le_refl _
            · exact le_of_lt (hlt x hx')
        · refine ⟨j0, j1, insIdx d i r, ?_, ?_⟩
          · rw [hstep]
            simp only [insIdx, if_neg h1, if_neg h2']
          refine ⟨List.mem_cons_of_mem i hj0m, List.mem_cons_of_mem i hj1m,
            hj01, ?_, ?_, ?_, ?_⟩
          · intro x hx
            rcases List.mem_cons.mp hx with rfl | hx'
            · exact le_of_lt (not_le.mp h1)
            · exact hmin0 x hx'
          · intro x hx hdx
            rcases List.mem_cons.mp hx with rfl | hx'
            · exact absurd hdx (ne_of_gt (not_le.mp h1))
            · exact htie0 x hx' hdx
          · intro x hx hne
            rcases List.mem_cons.mp hx with rfl | hx'
            · exact le_of_lt (not_le.mp h2')
            · exact hmin1 x hx' hne
          · intro x hx hne hdx
            rcases List.mem_cons.mp hx with rfl | hx'
            · exact absurd hdx (ne_of_gt (not_le.mp h2'))
            · exact htie1 x hx' hne hdx
    · obtain ⟨j, rfl⟩ : ∃ j, t = [j] := by
        cases t with
        | nil => simp at h2
        | cons a t' =>
          cases t' with
          | nil => exact ⟨a, rfl⟩
          | cons b t'' =>
            exfalso
            apply ht2
            simp
      have hij : i < j := hlt j (List.mem_cons_self j [])
      by_cases h1 : d i ≤ d j
      · refine ⟨i, j, [], by simp [sortIdx, insIdx, h1], by simp,
          by simp, ne_of_lt hij, ?_, ?_, ?_, ?_⟩
        · intro x hx
          simp only [List.mem_cons, List.not_mem_nil, or_false] at hx
          rcases hx with rfl | rfl
          · exact le_refl _
          · exact h1
        · intro x hx _
          simp only [List.mem_cons, List.not_mem_nil, or_false] at hx
          rcases hx with rfl | rfl
          · exact le_refl _
          · exact le_of_lt hij
        · intro x hx hne
          simp only [List.mem_cons, List.not_mem_nil, or_false] at hx
          rcases hx with rfl | rfl
          · exact absurd rfl hne
          · exact le_refl _
        · intro x hx hne _
          simp only [List.mem_cons, List.not_mem_nil, or_false] at hx
          rcases hx with rfl | rfl
          · exact absurd rfl hne
          · exact le_refl _
      · refine ⟨j, i, [], by simp [sortIdx, insIdx, h1], by simp,
          by simp, ne_of_gt hij, ?_, ?_, ?_, ?_⟩
        · intro x hx
          simp only [List.mem_cons, List.not_mem_nil, or_false] at hx
          rcases hx with rfl | rfl
          · exact le_of_lt (not_le.mp h1)
          · exact le_refl _
        · intro x hx hdx
          simp only [List.mem_cons, List.not_mem_nil, or_false] at hx
          rcases hx with rfl | rfl
          · exact absurd hdx (ne_of_gt (not_le.mp h1))
          · exact le_refl _
        · intro x hx hne
          simp only [List.mem_cons, List.not_mem_nil, or_false] at hx
          rcases hx with rfl | rfl
          · exact le_refl _
          · exact absurd rfl hne
        · intro x hx hne _
          simp only [List.mem_cons, List.not_mem_nil, or_false] at hx
          rcases hx with rfl | rfl
          · exact le_refl _
          · exact absurd rfl hne

theorem argsortIdx_five (d : ℕ → ℚ) :
    ∃ i0 i1 rest, argsortIdx d 5 = i0 :: i1 :: rest ∧
      TwoSmallest d (List.range 5) i0 i1 := by
  apply sortIdx_two
  · decide
  · decide

/-- The code output of `determineFourClosestPrfLoc` is the Cartesian
product, in the fixed enumeration order, of the two stably-selected
closest column indices and row indices. -/
theorem determineFourClosest_form (col row : ℚ) :
    ∃ ic0 ic1 ir0 ir1,
      TwoSmallest (difKey posCols col) (List.range 5) ic0 ic1 ∧
      TwoSmallest (difKey posRows row) (List.range 5) ir0 ir1 ∧
      determineFourClosestPrfLoc col row =
        [(posCols.getD ic0 0, posRows.getD ir0 0),
         (posCols.getD ic1 0, posRows.getD ir0 0),
         (posCols.getD ic0 0, posRows.getD ir1 0),
         (posCols.getD ic1 0, posRows.getD ir1 0)] := by
  obtain ⟨ic0, ic1, rc, hc, hTSc⟩ := argsortIdx_five (difKey posCols col)
  obtain ⟨ir0, ir1, rr, hr, hTSr⟩ := argsortIdx_five (difKey posRows row)
  refine ⟨ic0, ic1, ir0, ir1, hTSc, hTSr, ?_⟩
  simp only [determineFourClosestPrfLoc, hc, hr]
  rfl

/-- C3: for every real col and row, `determineFourClosestPrfLoc` returns
exactly the four pairs that are the Cartesian product of the two column
positions and the two row positions with smallest absolute difference to
the request (ties broken towards the original index), enumerated as
`(col0,row0), (col1,row0), (col0,row1), (col1,row1)` with the selected
indices in difference-sort order. -/
theorem fourClosest_is_stable_product (col row : ℚ) :
    ∃ ic0 ic1 ir0 ir1,
      TwoSmallest (difKey posCols col) (List.range 5) ic0 ic1 ∧
      TwoSmallest (difKey posRows row) (List.range 5) ir0 ir1 ∧
      determineFourClosestPrfLoc col row =
        [(posCols.getD ic0 0, posRows.getD ir0 0),
         (posCols.getD ic1 0, posRows.getD ir0 0),
         (posCols.getD ic0 0, posRows.getD ir1 0),
         (posCols.getD ic1 0, posRows.getD ir1 0)] :=
  determineFourClosest_form col row

theorem posCols_getD_inj (a b : ℕ) (ha : a ∈ List.range 5)
    (hb : b ∈ List.range 5) (hne : a ≠ b) :
    posCols.getD a 0 ≠ posCols.getD b 0 := by
  have ha' := List.mem_range.mp ha
  have hb' := List.mem_range.mp hb
  interval_cases a <;> interval_cases b <;> revert hne <;> decide

theorem posRows_getD_inj (a b : ℕ) (ha : a ∈ List.range 5)
    (hb : b ∈ List.range 5) (hne : a ≠ b) :
    posRows.getD a 0 ≠ posRows.getD b 0 := by
  have ha' := List.mem_range.mp ha
  have hb' := List.mem_range.mp hb
  interval_cases a <;> interval_cases b <;> revert hne <;> decide

/-- C8: the four locations produced by `determineFourClosestPrfLoc`
always satisfy `c0 ≠ c1` (positions 0 and 1) and `r0 ≠ r1` (positions 0
and 2), so `interpolatePrf`'s degenerate-grid assertions cannot fire on
them: with any four images it returns a result. -/
theorem degenerate_grid_unreachable (col row colq rowq : ℚ)
    (a b c dd : NMat) :
    ((determineFourClosestPrfLoc col row).getD 0 (0, 0)).1 ≠
        ((determineFourClosestPrfLoc col row).getD 1 (0, 0)).1 ∧
      ((determineFourClosestPrfLoc col row).getD 0 (0, 0)).2 ≠
        ((determineFourClosestPrfLoc col row).getD 2 (0, 0)).2 ∧
      (interpolatePrf [a, b, c, dd] colq rowq
        (determineFourClosestPrfLoc col row)).isSome = true := by
  obtain ⟨ic0, ic1, ir0, ir1, hTSc, hTSr, hform⟩ :=
    determineFourClosest_form col row
  have hcne : posCols.getD ic0 0 ≠ posCols.getD ic1 0 :=
    posCols_getD_inj ic0 ic1 hTSc.1 hTSc.2.1 hTSc.2.2.1
  have hrne : posRows.getD ir0 0 ≠ posRows.getD ir1 0 :=
    posRows_getD_inj ir0 ir1 hTSr.1 hTSr.2.1 hTSr.2.2.1
  rw [hform]
  refine ⟨by simpa using hcne, by simpa using hrne, ?_⟩
  simp only [interpolatePrf, List.getD_cons_zero, List.getD_cons_succ]
  rw [if_pos ⟨by simpa using hcne, by simpa using hrne⟩]
  rfl

/-- C4: bilinear interpolation over a non-degenerate corner bracket is
exact at all four corners: evaluated at corner `k`'s (col, row), the
result equals image `k` pointwise. -/
theorem interpolate_exact_at_corners (p11 p21 p12 p22 : NMat) (N : ℕ)
    (c0 c1 r0 r1 : ℤ) (hc : c0 ≠ c1) (hr : r0 ≠ r1)
    (h11r : p11.nr = N) (h11c : p11.nc = N)
    (h21r : p21.nr = N) (h21c : p21.nc = N)
    (h12r : p12.nr = N) (h12c : p12.nc = N)
    (h22r : p22.nr = N) (h22c : p22.nc = N) :
    (∃ q, interpolatePrf [p11, p21, p12, p22] (c0 : ℚ) (r0 : ℚ)
        [(c0, r0), (c1, r0), (c0, r1), (c1, r1)] = some q ∧ q.Eq p11) ∧
    (∃ q, interpolatePrf [p11, p21, p12, p22] (c1 : ℚ) (r0 : ℚ)
        [(c0, r0), (c1, r0), (c0, r1), (c1, r1)] = some q ∧ q.Eq p21) ∧
    (∃ q, interpolatePrf [p11, p21, p12, p22] (c0 : ℚ) (r1 : ℚ)
        [(c0, r0), (c1, r0), (c0, r1), (c1, r1)] = some q ∧ q.Eq p12) ∧
    (∃ q, interpolatePrf [p11, p21, p12, p22] (c1 : ℚ) (r1 : ℚ)
        [(c0, r0), (c1, r0), (c0, r1), (c1, r1)] = some q ∧ q.Eq p22) := by
  have hcQ : (c0 : ℚ) ≠ (c1 : ℚ) := by exact_mod_cast hc
  have hrQ : (r0 : ℚ) ≠ (r1 : ℚ) := by exact_mod_cast hr
  have hd0c : ((c0 : ℚ) - (c0 : ℚ)) / ((c1 : ℚ) - (c0 : ℚ)) = 0 := by
    rw [sub_self, zero_div]
  have hd1c : ((c1 : ℚ) - (c0 : ℚ)) / ((c1 : ℚ) - (c0 : ℚ)) = 1 :=
    div_self (sub_ne_zero.mpr (Ne.symm hcQ))
  have hd0r : ((r0 : ℚ) - (r0 : ℚ)) / ((r1 : ℚ) - (r0 : ℚ)) = 0 := by
    rw [sub_self, zero_div]
  have hd1r : ((r1 : ℚ) - (r0 : ℚ)) / ((r1 : ℚ) - (r0 : ℚ)) = 1 :=
    div_self (sub_ne_zero.mpr (Ne.symm hrQ))
  have hemk : ∀ (a b : ℕ) (f : ℕ → ℕ → ℚ) (i j : ℕ),
      (NMat.mk a b f).e i j = f i j := fun _ _ _ _ _ => rfl
  refine ⟨?_, ?_, ?_, ?_⟩
  · simp only [interpolatePrf, List.getD_cons_zero, List.getD_cons_succ]
    rw [if_pos ⟨hc, hr⟩]
    refine ⟨_, rfl, rfl, rfl, ?_⟩
    intro i hi j hj
    simp only [hemk, hd0c, hd0r]
    ring
  · simp only [interpolatePrf, List.getD_cons_zero, List.getD_cons_succ]
    rw [if_pos ⟨hc, hr⟩]
    refine ⟨_, rfl, h11r.trans h21r.symm, h11c.trans h21c.symm, ?_⟩
    intro i hi j hj
    simp only [hemk, hd1c, hd0r]
    ring
  · simp only [interpolatePrf, List.getD_cons_zero, List.getD_cons_succ]
    rw [if_pos ⟨hc, hr⟩]
    refine ⟨_, rfl, h11r.trans h12r.symm, h11c.trans h12c.symm, ?_⟩
    intro i hi j hj
    simp only [hemk, hd0c, hd1r]
    ring
  · simp only [interpolatePrf, List.getD_cons_zero, List.getD_cons_succ]
    rw [if_pos ⟨hc, hr⟩]
    refine ⟨_, rfl, h11r.trans h22r.symm, h11c.trans h22c.symm, ?_⟩
    intro i hi j hj
    simp only [hemk, hd1c, hd1r]
    ring

/-- C10: `interpolatePrf` reads only `imagePos[0].col`, `imagePos[1].col`,
`imagePos[0].row` and `imagePos[2].row`: two grid-point lists agreeing on
those four components give identical results — the fourth point (and the
unused coordinates of points 1 and 2) are silently ignored. -/
theorem interpolate_ignores_unused_coords (imgs : List NMat) (col row : ℚ)
    (q0 q1 q2 q3 p0 p1 p2 p3 : ℤ × ℤ)
    (h0c : q0.1 = p0.1) (h1c : q1.1 = p1.1)
    (h0r : q0.2 = p0.2) (h2r : q2.2 = p2.2) :
    interpolatePrf imgs col row [q0, q1, q2, q3] =
      interpolatePrf imgs col row [p0, p1, p2, p3] := by
  match imgs with
  | [] => rfl
  | [a] => rfl
  | [a, b] => rfl
  | [a, b, c] => rfl
  | a :: b :: c :: dd :: f :: rest => rfl
  | [a, b, c, dd] =>
    simp only [interpolatePrf, List.getD_cons_zero, List.getD_cons_succ]
    rw [h0c, h1c, h0r, h2r]

/-- C4 witness: concrete 1×1 images over the unit corner bracket. -/
theorem interpolate_exact_at_corners_witness :
    (∃ q, interpolatePrf [⟨1, 1, fun _ _ => 3⟩, ⟨1, 1, fun _ _ => 5⟩,
        ⟨1, 1, fun _ _ => 7⟩, ⟨1, 1, fun _ _ => 11⟩] ((0 : ℤ) : ℚ)
        ((0 : ℤ) : ℚ) [(0, 0), (1, 0), (0, 1), (1, 1)] = some q ∧
        q.Eq ⟨1, 1, fun _ _ => 3⟩) ∧
    (∃ q, interpolatePrf [⟨1, 1, fun _ _ => 3⟩, ⟨1, 1, fun _ _ => 5⟩,
        ⟨1, 1, fun _ _ => 7⟩, ⟨1, 1, fun _ _ => 11⟩] ((1 : ℤ) : ℚ)
        ((0 : ℤ) : ℚ) [(0, 0), (1, 0), (0, 1), (1, 1)] = some q ∧
        q.Eq ⟨1, 1, fun _ _ => 5⟩) ∧
    (∃ q, interpolatePrf [⟨1, 1, fun _ _ => 3⟩, ⟨1, 1, fun _ _ => 5⟩,
        ⟨1, 1, fun _ _ => 7⟩, ⟨1, 1, fun _ _ => 11⟩] ((0 : ℤ) : ℚ)
        ((1 : ℤ) : ℚ) [(0, 0), (1, 0), (0, 1), (1, 1)] = some q ∧
        q.Eq ⟨1, 1, fun _ _ => 7⟩) ∧
    (∃ q, interpolatePrf [⟨1, 1, fun _ _ => 3⟩, ⟨1, 1, fun _ _ => 5⟩,
        ⟨1, 1, fun _ _ => 7⟩, ⟨1, 1, fun _ _ => 11⟩] ((1 : ℤ) : ℚ)
        ((1 : ℤ) : ℚ) [(0, 0), (1, 0), (0, 1), (1, 1)] = some q ∧
        q.Eq ⟨1, 1, fun _ _ => 11⟩) :=
  interpolate_exact_at_corners ⟨1, 1, fun _ _ => 3⟩ ⟨1, 1, fun _ _ => 5⟩
    ⟨1, 1, fun _ _ => 7⟩ ⟨1, 1, fun _ _ => 11⟩ 1 0 1 0 1
    (by decide) (by decide) rfl rfl rfl rfl rfl rfl rfl rfl

/-- C10 witness: concrete four images and two position lists differing
only in the fourth point give the same interpolation result. -/
theorem interpolate_ignores_unused_coords_witness :
    interpolatePrf [⟨1, 1, fun _ _ => 3⟩, ⟨1, 1, fun _ _ => 5⟩,
        ⟨1, 1, fun _ _ => 7⟩, ⟨1, 1, fun _ _ => 11⟩] (1/2) (1/3)
      [(0, 0), (1, 0), (0, 1), (1, 1)] =
    interpolatePrf [⟨1, 1, fun _ _ => 3⟩, ⟨1, 1, fun _ _ => 5⟩,
        ⟨1, 1, fun _ _ => 7⟩, ⟨1, 1, fun _ _ => 11⟩] (1/2) (1/3)
      [(0, 0), (1, 0), (0, 1), (77, 99)] :=
  interpolate_ignores_unused_coords _ (1/2) (1/3)
    (0, 0) (1, 0) (0, 1) (1, 1) (0, 0) (1, 0) (0, 1) (77, 99)
    rfl rfl rfl rfl

/-- C7 counterexample: extraction on a 10×10 array does not fail — it
returns a (2×2) image, so exactness of `rows / 9` is not asserted. -/
theorem getRegSampled_succeeds_on_10x10 :
    (getRegSampledPrfFitsByOffset ⟨10, 10, fun _ _ => (0 : ℚ)⟩ 0 0).isSome =
        true ∧
      (getRegSampledPrfFitsByOffset ⟨10, 10, fun _ _ => (0 : ℚ)⟩ 0 0).map
          NMat.nr = some 2 ∧
      (getRegSampledPrfFitsByOffset ⟨10, 10, fun _ _ => (0 : ℚ)⟩ 0 0).map
          NMat.nc = some 2 := by
  refine ⟨?_, ?_, ?_⟩ <;> rfl

theorem getOffsets_at_int (a b : ℤ) :
    getOffsetsFromPixelFractions (a : ℚ) (b : ℚ) = (8, 8) := by
  simp only [getOffsetsFromPixelFractions]
  have h : ∀ x : ℤ, (x : ℚ) - (ratFloor (x : ℚ) : ℚ) = 0 := by
    intro x
    rw [ratFloor_eq, Int.floor_intCast]
    ring
  rw [h a, h b]
  have h0 : npRound (9 * (0 : ℚ)) = 0 := by decide
  rw [h0]
  rfl

/-- C5: at a location exactly equal to a catalog grid point, with the
same loader behaviour (and that loader succeeding on the bracketing
points), the nearest-only lookup and the interpolated lookup return
exactly the same image. -/
theorem nearest_agrees_interpolated_at_grid (load : LoadFn)
    (ccd camera sector : ℤ) (path : String) (i j : ℕ)
    (hi : i < 5) (hj : j < 5) (col row : ℚ)
    (hcol : col = (posCols.getD i 0 : ℚ)) (hrow : row = (posRows.getD j 0 : ℚ))
    (hccd : 1 ≤ ccd ∧ ccd ≤ 4) (hcam : 1 ≤ camera ∧ camera ≤ 4)
    (hsec : 1 ≤ sector)
    (hload : ∀ (pth dst : String), ∀ pos ∈ determineFourClosestPrfLoc col row,
      ((load ccd camera pos.1 pos.2 pth dst).bind
        (fun arr => getRegSampledPrfFitsByOffset arr 8 8)).isSome = true) :
    ∃ P Q, getNearestPrfFits load col row ccd camera sector path = some P ∧
      getPrfAtColRowFits load col row ccd camera sector path = some Q ∧
      Q.Eq P := by
  obtain ⟨ic0, ic1, ir0, ir1, hTSc, hTSr, hform⟩ :=
    determineFourClosest_form col row
  have hcne : posCols.getD ic0 0 ≠ posCols.getD ic1 0 :=
    posCols_getD_inj ic0 ic1 hTSc.1 hTSc.2.1 hTSc.2.2.1
  have hrne : posRows.getD ir0 0 ≠ posRows.getD ir1 0 :=
    posRows_getD_inj ir0 ir1 hTSr.1 hTSr.2.1 hTSr.2.2.1
  have hc0 : (posCols.getD ic0 0 : ℚ) = col := by
    have hdi : difKey posCols col i = 0 := by
      simp only [difKey, hcol, sub_self, abs_zero]
    have hmin := hTSc.2.2.2.1 i (List.mem_range.mpr hi)
    have habs : difKey posCols col ic0 = 0 :=
      le_antisymm (hdi ▸ hmin) (abs_nonneg _)
    have hz := abs_eq_zero.mp habs
    linarith [hz]
  have hr0 : (posRows.getD ir0 0 : ℚ) = row := by
    have hdi : difKey posRows row j = 0 := by
      simp only [difKey, hrow, sub_self, abs_zero]
    have hmin := hTSr.2.2.2.1 j (List.mem_range.mpr hj)
    have habs : difKey posRows row ir0 = 0 :=
      le_antisymm (hdi ▸ hmin) (abs_nonneg _)
    have hz := abs_eq_zero.mp habs
    linarith [hz]
  obtain ⟨⟨ds, ap⟩, hpl⟩ :
      ∃ x, pathLookup ccd camera sector = some x := by
    rcases hx : pathLookup ccd camera sector with _ | x
    · rcases (pathLookup_none_iff ccd camera sector).mp hx with h | h | h <;>
        omega
    · exact ⟨x, rfl⟩
  have hoff : getOffsetsFromPixelFractions col row = (8, 8) := by
    rw [hcol, hrow]
    exact getOffsets_at_int _ _
  have h0 := hload (path ++ ap) ds (posCols.getD ic0 0, posRows.getD ir0 0)
    (by rw [hform]; simp)
  obtain ⟨P, hP⟩ := Option.isSome_iff_exists.mp h0
  have h1 := hload (path ++ ap) ds (posCols.getD ic1 0, posRows.getD ir0 0)
    (by rw [hform]; simp)
  obtain ⟨P1, hP1⟩ := Option.isSome_iff_exists.mp h1
  have h2 := hload (path ++ ap) ds (posCols.getD ic0 0, posRows.getD ir1 0)
    (by rw [hform]; simp)
  obtain ⟨P2, hP2⟩ := Option.isSome_iff_exists.mp h2
  have h3 := hload (path ++ ap) ds (posCols.getD ic1 0, posRows.getD ir1 0)
    (by rw [hform]; simp)
  obtain ⟨P3, hP3⟩ := Option.isSome_iff_exists.mp h3
  have hnear : getNearestPrfFits load col row ccd camera sector path =
      some P := by
    simp only [getNearestPrfFits, hpl, Option.some_bind, hoff, hform,
      List.getD_cons_zero]
    exact hP
  have hdc : (col - (posCols.getD ic0 0 : ℚ)) /
      ((posCols.getD ic1 0 : ℚ) - (posCols.getD ic0 0 : ℚ)) = 0 := by
    rw [hc0, sub_self, zero_div]
  have hdr : (row - (posRows.getD ir0 0 : ℚ)) /
      ((posRows.getD ir1 0 : ℚ) - (posRows.getD ir0 0 : ℚ)) = 0 := by
    rw [hr0, sub_self, zero_div]
  have hinterp : getPrfAtColRowFits load col row ccd camera sector path =
      some ⟨P.nr, P.nc, fun a b =>
        (P.e a b + (P1.e a b - P.e a b) *
          ((col - (posCols.getD ic0 0 : ℚ)) /
            ((posCols.getD ic1 0 : ℚ) - (posCols.getD ic0 0 : ℚ)))) +
        ((P2.e a b + (P3.e a b - P2.e a b) *
          ((col - (posCols.getD ic0 0 : ℚ)) /
            ((posCols.getD ic1 0 : ℚ) - (posCols.getD ic0 0 : ℚ)))) -
         (P.e a b + (P1.e a b - P.e a b) *
          ((col - (posCols.getD ic0 0 : ℚ)) /
            ((posCols.getD ic1 0 : ℚ) - (posCols.getD ic0 0 : ℚ))))) *
          ((row - (posRows.getD ir0 0 : ℚ)) /
            ((posRows.getD ir1 0 : ℚ) - (posRows.getD ir0 0 : ℚ)))⟩ := by
    simp only [getPrfAtColRowFits, hpl, Option.some_bind, hoff, hform]
    rw [List.mapM_cons, List.mapM_cons, List.mapM_cons, List.mapM_cons,
      List.mapM_nil]
    simp only [Option.pure_def, Option.bind_eq_bind, hP, hP1, hP2, hP3,
      Option.some_bind]
    simp only [interpolatePrf, List.getD_cons_zero, List.getD_cons_succ]
    rw [if_pos ⟨hcne, hrne⟩]
  refine ⟨P, _, hnear, hinterp, rfl, rfl, ?_⟩
  intro a ha b hb
  simp only [hdc, hdr]
  ring

/-- C5 witness: at grid point (45, 1) with the constant loader, both
public operations succeed and agree. -/
theorem nearest_agrees_interpolated_at_grid_witness :
    ∃ P Q, getNearestPrfFits constLoad 45 1 1 1 1 "" = some P ∧
      getPrfAtColRowFits constLoad 45 1 1 1 1 "" = some Q ∧ Q.Eq P :=
  nearest_agrees_interpolated_at_grid constLoad 1 1 1 "" 0 0
    (by decide) (by decide) 45 1 (by decide) (by decide)
    (by decide) (by decide) (by decide)
    (fun pth dst pos _ => rfl)

end MainTheorems
